import Mathlib

/-!
Verification of the peer-pool layer (`grpc.go`) of the groupcache fork.
The pool state, membership reconciliation (`Set`), incremental membership
changes (`AddPeers`, `RemovePeers`), peer selection (`PickPeer`) and the
inbound service handlers (`Retrieve`, `Delete`, `SetPeers`) are embedded
as pure Lean functions over explicit state.  Dialing a peer is modelled
by a reachability oracle together with a fresh-identifier counter, so
that connection-object identity (reuse vs. re-dial) is observable.
-/

namespace Groupcache

/-- Value bytes carried by a retrieve response. -/
abbrev Bytes := List Nat

/-- A `grpcGetter`: one outbound connection, bound to an address.
`connId` models object identity of the underlying connection: a fresh
dial always yields a `connId` never used before, so two getters are the
same connection object iff they are equal. -/
structure GrpcGetter where
  address : String
  connId : Nat
deriving DecidableEq

/-- The `grpcGetters` field: a map from peer address to getter,
embedded as an association list with map semantics (lookup finds the
unique binding; insert replaces; erase removes all bindings). -/
abbrev GetterMap := List (String × GrpcGetter)

/-- Map lookup (`m[k]` with `exists` flag in Go). -/
def lookupG : GetterMap → String → Option GrpcGetter
  | [], _ => none
  | e :: m, k => if e.1 = k then some e.2 else lookupG m k

/-- Map erase (`delete(m, k)` in Go). -/
def eraseG : GetterMap → String → GetterMap
  | [], _ => []
  | e :: m, k => if e.1 = k then eraseG m k else e :: eraseG m k

/-- Map insert (`m[k] = v` in Go): replaces any existing binding. -/
def insertG (m : GetterMap) (k : String) (v : GrpcGetter) : GetterMap :=
  eraseG m k ++ [(k, v)]

/-- The key set of the map. -/
def keysG (m : GetterMap) : List String :=
  m.map (fun e => e.1)

/-- The values of the map. -/
def valuesG (m : GetterMap) : List GrpcGetter :=
  m.map (fun e => e.2)

/-- Modelled from the spec: the external stable-hash ring
(`consistenthash.Map`, not under src/).  Its contract is
`New(replicas, hashFn)`, `Add(addresses...)`, `Get(key) → owner`,
`IsEmpty()`: deterministic, and `Get` returns one of the added
addresses.  We model ring state as the list of added addresses and
`Get` as a deterministic selection driven by an abstract hash
function. -/
def ringGet (hashFn : String → Nat) (members : List String) (key : String) : String :=
  members.getD (hashFn key % members.length) ""

/-- `GRPCPoolOptions` (dial options and hash function are abstracted
away; the hash function is passed to `PickPeer` explicitly). -/
structure GRPCPoolOptions where
  Replicas : Nat
deriving DecidableEq

/-- Modelled from the spec: the default replica count (`defaultReplicas`
is referenced by src/grpc.go but defined elsewhere in the repository;
the spec says only "a fixed constant"). -/
def defaultReplicas : Nat := 50

/-- The `GRPCPool` state: `self`, the ring (`peers`, as its member
list), the connection map (`grpcGetters`), plus two ghost components
that make resource behaviour observable: `closedConns` records every
getter that has been closed, and `nextId` is the fresh-identity
counter consumed by dials. -/
@[ext]
structure GRPCPool where
  self : String
  replicas : Nat
  peers : List String
  grpcGetters : GetterMap
  closedConns : List GrpcGetter
  nextId : Nat
deriving DecidableEq

/-- `newGRPCGetter`: dialing `address`.  The reachability oracle
`reach` decides whether `grpc.Dial` fails; on success the getter is a
fresh connection object (identity `nid`). -/
def newGRPCGetter (reach : String → Bool) (address : String) (nid : Nat) : Option GrpcGetter :=
  if reach address then some ⟨address, nid⟩ else none

/-- `NewGRPCPoolOptions`: takes the current value of the process-wide
`grpcPoolCreated` flag; the Go `panic` on double construction is the
`Except.error` case.  Returns the updated flag and the pool. -/
def NewGRPCPoolOptions (grpcPoolCreated : Bool) (self : String)
    (opts : Option GRPCPoolOptions) : Except String (Bool × GRPCPool) :=
  if grpcPoolCreated then
    .error "NewGRPCPool must be called only once"
  else
    let r := match opts with
      | some o => if o.Replicas = 0 then defaultReplicas else o.Replicas
      | none => defaultReplicas
    .ok (true,
      { self := self, replicas := r, peers := [], grpcGetters := [],
        closedConns := [], nextId := 0 })

/-- `NewGRPCPool` delegates to `NewGRPCPoolOptions` with nil options. -/
def NewGRPCPool (grpcPoolCreated : Bool) (self : String) :
    Except String (Bool × GRPCPool) :=
  NewGRPCPoolOptions grpcPoolCreated self none

/-- The loop body of `GRPCPool.Set`: walks the new peer list carrying
the old map (bindings are deleted as they are moved), the temp map,
the new ring and the fresh-id counter, exactly as grpc.go:84-98. -/
def setLoop (reach : String → Bool) :
    List String → GetterMap → GetterMap → List String → Nat →
    GetterMap × GetterMap × List String × Nat
  | [], old, temp, newRing, nid => (old, temp, newRing, nid)
  | p :: ps, old, temp, newRing, nid =>
    match lookupG old p with
    | some g => setLoop reach ps (eraseG old p) (insertG temp p g) (newRing ++ [p]) nid
    | none =>
      match newGRPCGetter reach p nid with
      | some g => setLoop reach ps old (insertG temp p g) (newRing ++ [p]) (nid + 1)
      | none => setLoop reach ps old temp newRing nid

/-- `GRPCPool.Set` (grpc.go:79-106): full membership reconciliation.
Builds a fresh ring and working map, moving existing getters and
dialing new ones; every binding left in the old map is closed. -/
def GRPCPool.Set (reach : String → Bool) (gp : GRPCPool) (peersArg : List String) : GRPCPool :=
  let r := setLoop reach peersArg gp.grpcGetters [] [] gp.nextId
  { gp with
    peers := r.2.2.1,
    grpcGetters := r.2.1,
    closedConns := gp.closedConns ++ valuesG r.1,
    nextId := r.2.2.2 }

/-- `GRPCPool.GetAll` (grpc.go:109-120): snapshot of all getters. -/
def GRPCPool.GetAll (gp : GRPCPool) : List GrpcGetter :=
  valuesG gp.grpcGetters

/-- `GRPCPool.PickPeer` (grpc.go:122-134).  Note that when the owner
differs from `self`, the Go code returns `gp.grpcGetters[peer], true`:
a missing key yields the map's zero value together with `true`. -/
def GRPCPool.PickPeer (hashFn : String → Nat) (gp : GRPCPool) (key : String) :
    Option GrpcGetter × Bool :=
  if gp.peers.isEmpty then (none, false)
  else
    let peer := ringGet hashFn gp.peers key
    if peer ≠ gp.self then (lookupG gp.grpcGetters peer, true)
    else (none, false)

/-- The loop body of `GRPCPool.AddPeers` (grpc.go:166-177). -/
def addLoop (reach : String → Bool) :
    List String → GetterMap → List String → Nat →
    GetterMap × List String × Nat
  | [], m, ring, nid => (m, ring, nid)
  | p :: ps, m, ring, nid =>
    match lookupG m p with
    | some _ => addLoop reach ps m ring nid
    | none =>
      match newGRPCGetter reach p nid with
      | some g => addLoop reach ps (insertG m p g) (ring ++ [p]) (nid + 1)
      | none => addLoop reach ps m ring nid

/-- `GRPCPool.AddPeers` (grpc.go:163-179): dials each absent address;
failures are logged and skipped; always returns `(&Ack{}, nil)`. -/
def GRPCPool.AddPeers (reach : String → Bool) (gp : GRPCPool) (peersArg : List String) :
    GRPCPool × Except String Unit :=
  let r := addLoop reach peersArg gp.grpcGetters gp.peers gp.nextId
  ({ gp with grpcGetters := r.1, peers := r.2.1, nextId := r.2.2 }, .ok ())

/-- The loop body of `GRPCPool.RemovePeers` (grpc.go:184-190): closes
and deletes each present address from the map.  The ring is not
touched by the source. -/
def removeLoop : List String → GetterMap → List GrpcGetter →
    GetterMap × List GrpcGetter
  | [], m, cl => (m, cl)
  | p :: ps, m, cl =>
    match lookupG m p with
    | some g => removeLoop ps (eraseG m p) (cl ++ [g])
    | none => removeLoop ps m cl

/-- `GRPCPool.RemovePeers` (grpc.go:181-192): always returns
`(&Ack{}, nil)`. -/
def GRPCPool.RemovePeers (gp : GRPCPool) (peersArg : List String) :
    GRPCPool × Except String Unit :=
  let r := removeLoop peersArg gp.grpcGetters gp.closedConns
  ({ gp with grpcGetters := r.1, closedConns := r.2 }, .ok ())

/-- `GRPCPool.SetPeers` (grpc.go:194-197): the inbound handler
delegates to `Set` and always acknowledges. -/
def GRPCPool.SetPeers (reach : String → Bool) (gp : GRPCPool) (peersArg : List String) :
    GRPCPool × Except String Unit :=
  (GRPCPool.Set reach gp peersArg, .ok ())

/-- A local cache group, as seen by the inbound handlers: its
server-request counter (`Stats.ServerRequests`) and the keys removed
so far by `localRemove`. -/
structure Group where
  serverRequests : Nat
  removed : List String
deriving DecidableEq

/-- The local cache registry resolving group names. -/
abbrev Registry := List (String × Group)

/-- `GetGroup`: resolve a group name. -/
def GetGroup : Registry → String → Option Group
  | [], _ => none
  | e :: r, name => if e.1 = name then some e.2 else GetGroup r name

/-- Update the entry for `name` in the registry. -/
def setGroup : Registry → String → Group → Registry
  | [], _, _ => []
  | e :: r, name, g =>
    if e.1 = name then (name, g) :: setGroup r name g else e :: setGroup r name g

/-- `GRPCPool.Retrieve` (grpc.go:136-150): unknown group fails without
touching anything; otherwise the server-request counter is bumped once
and the fetch (the oracle `fetch`, standing for `group.Get`) either
yields the value bytes or its failure is wrapped and propagated. -/
def GRPCPool.Retrieve (fetch : String → String → Except String Bytes)
    (r : Registry) (group key : String) : Registry × Except String Bytes :=
  match GetGroup r group with
  | none => (r, .error ("Unable to find group [" ++ group ++ "]"))
  | some g =>
    let g' : Group := { g with serverRequests := g.serverRequests + 1 }
    let r' := setGroup r group g'
    match fetch group key with
    | .error e => (r', .error ("Failed to retrieve [" ++ group ++ "/" ++ key ++ "]: " ++ e))
    | .ok v => (r', .ok v)

/-- `GRPCPool.Delete` (grpc.go:152-161): unknown group fails;
otherwise the server-request counter is bumped once and the key is
removed locally (`localRemove`), then the call acknowledges. -/
def GRPCPool.Delete (r : Registry) (group key : String) :
    Registry × Except String Unit :=
  match GetGroup r group with
  | none => (r, .error ("Unable to find group [" ++ group ++ "]"))
  | some g =>
    let g' : Group := { g with serverRequests := g.serverRequests + 1,
                               removed := g.removed ++ [key] }
    (setGroup r group g', .ok ())

/-! ### Concrete fixtures used to evaluate the model -/

/-- A dial oracle under which every address is reachable. -/
def allReach : String → Bool := fun _ => true

/-- A dial oracle under which every dial fails. -/
def noReach : String → Bool := fun _ => false

/-- A concrete hash function for evaluating `PickPeer`. -/
def hashZero : String → Nat := fun _ => 0

/-- A pool whose ring and connection map both hold the single peer `B`. -/
def poolB : GRPCPool :=
  { self := "A", replicas := 1, peers := ["B"],
    grpcGetters := [("B", ⟨"B", 0⟩)], closedConns := [], nextId := 1 }

/-- A pool whose ring holds `B` but whose connection map is empty. -/
def poolMissing : GRPCPool :=
  { self := "A", replicas := 1, peers := ["B"], grpcGetters := [],
    closedConns := [], nextId := 0 }

/-- A freshly built pool with no peers. -/
def poolEmpty : GRPCPool :=
  { self := "A", replicas := 1, peers := [], grpcGetters := [],
    closedConns := [], nextId := 0 }

/-- A registry holding one group with a zeroed counter. -/
def reg1 : Registry := [("g1", { serverRequests := 0, removed := [] })]

/-- A fetch oracle that always succeeds with the bytes `[1, 2]`. -/
def fetchOk : String → String → Except String Bytes := fun _ _ => .ok [1, 2]

/-! ### Basic lemmas about the map primitives -/

lemma lookupG_eraseG_self (m : GetterMap) (k : String) :
    lookupG (eraseG m k) k = none := by
  induction m with
  | nil => rfl
  | cons e m ih =>
    by_cases h : e.1 = k <;> simp [eraseG, lookupG, h, ih]

lemma lookupG_eraseG_ne (m : GetterMap) (ek k : String) (h : ¬ ek = k) :
    lookupG (eraseG m ek) k = lookupG m k := by
  induction m with
  | nil => rfl
  | cons e m ih =>
    by_cases he : e.1 = ek
    · simp [eraseG, lookupG, he, ih, h]
    · simp [eraseG, lookupG, he, ih]

lemma lookupG_append (m₁ m₂ : GetterMap) (k : String) :
    lookupG (m₁ ++ m₂) k =
      (match lookupG m₁ k with
       | some g => some g
       | none => lookupG m₂ k) := by
  induction m₁ with
  | nil => simp [lookupG]
  | cons e m ih =>
    by_cases he : e.1 = k <;> simp [lookupG, he, ih]

lemma lookupG_insertG_self (m : GetterMap) (k : String) (v : GrpcGetter) :
    lookupG (insertG m k v) k = some v := by
  simp [insertG, lookupG_append, lookupG_eraseG_self, lookupG]

lemma lookupG_insertG_ne (m : GetterMap) (k k' : String) (v : GrpcGetter)
    (h : ¬ k' = k) : lookupG (insertG m k' v) k = lookupG m k := by
  rw [insertG, lookupG_append, lookupG_eraseG_ne m k' k h]
  cases hm : lookupG m k <;> simp [lookupG, h]

lemma mem_keysG_iff (m : GetterMap) (a : String) :
    a ∈ keysG m ↔ ∃ g, (a, g) ∈ m := by
  simp only [keysG, List.mem_map]
  constructor
  · rintro ⟨e, he, rfl⟩
    exact ⟨e.2, he⟩
  · rintro ⟨g, hg⟩
    exact ⟨(a, g), hg, rfl⟩

lemma lookupG_isSome_iff (m : GetterMap) (a : String) :
    (lookupG m a).isSome = true ↔ a ∈ keysG m := by
  induction m with
  | nil => simp [lookupG, keysG]
  | cons e m ih =>
    by_cases he : e.1 = a
    · simp [lookupG, keysG, he]
    · simp only [lookupG, if_neg he, ih, keysG, List.map_cons, List.mem_cons]
      constructor
      · exact Or.inr
      · rintro (h | h)
        · exact absurd h.symm he
        · exact h

lemma mem_eraseG (m : GetterMap) (k : String) (e : String × GrpcGetter) :
    e ∈ eraseG m k ↔ e ∈ m ∧ ¬ e.1 = k := by
  induction m with
  | nil => simp [eraseG]
  | cons e' m ih =>
    by_cases he : e'.1 = k
    · simp only [eraseG, if_pos he, ih, List.mem_cons]
      constructor
      · exact fun h => ⟨Or.inr h.1, h.2⟩
      · rintro ⟨h | h, hk⟩
        · exact absurd (h ▸ he) hk
        · exact ⟨h, hk⟩
    · simp only [eraseG, if_neg he, List.mem_cons, ih]
      constructor
      · rintro (h | h)
        · exact ⟨Or.inl h, h ▸ he⟩
        · exact ⟨Or.inr h.1, h.2⟩
      · rintro ⟨h | h, hk⟩
        · exact Or.inl h
        · exact Or.inr ⟨h, hk⟩

lemma mem_keysG_eraseG (m : GetterMap) (k a : String) :
    a ∈ keysG (eraseG m k) ↔ a ∈ keysG m ∧ ¬ a = k := by
  simp only [mem_keysG_iff]
  constructor
  · rintro ⟨g, hg⟩
    rcases (mem_eraseG m k (a, g)).mp hg with ⟨h1, h2⟩
    exact ⟨⟨g, h1⟩, h2⟩
  · rintro ⟨⟨g, h1⟩, h2⟩
    exact ⟨g, (mem_eraseG m k (a, g)).mpr ⟨h1, h2⟩⟩

lemma keysG_append (m₁ m₂ : GetterMap) :
    keysG (m₁ ++ m₂) = keysG m₁ ++ keysG m₂ := by
  simp [keysG]

lemma keysG_insertG (m : GetterMap) (k : String) (v : GrpcGetter) :
    keysG (insertG m k v) = keysG (eraseG m k) ++ [k] := by
  simp [insertG, keysG_append, keysG]

lemma mem_keysG_insertG (m : GetterMap) (k a : String) (v : GrpcGetter) :
    a ∈ keysG (insertG m k v) ↔ a = k ∨ a ∈ keysG m := by
  rw [keysG_insertG]
  simp only [List.mem_append, List.mem_singleton, mem_keysG_eraseG]
  constructor
  · rintro (⟨h, _⟩ | h)
    · exact Or.inr h
    · exact Or.inl h
  · rintro (h | h)
    · exact Or.inr h
    · by_cases hk : a = k
      · exact Or.inr hk
      · exact Or.inl ⟨h, hk⟩

lemma eraseG_sublist (m : GetterMap) (k : String) : (eraseG m k).Sublist m := by
  induction m with
  | nil => simp [eraseG]
  | cons e m ih =>
    by_cases he : e.1 = k
    · simpa [eraseG, he] using ih.cons e
    · simpa [eraseG, he] using ih.cons₂ e

lemma keysG_eraseG_nodup (m : GetterMap) (k : String)
    (h : (keysG m).Nodup) : (keysG (eraseG m k)).Nodup := by
  have hs : (List.map (fun e => e.1) (eraseG m k)).Nodup :=
    ((eraseG_sublist m k).map (fun e => e.1)).nodup (by simpa [keysG] using h)
  simpa [keysG] using hs

lemma keysG_insertG_nodup (m : GetterMap) (k : String) (v : GrpcGetter)
    (h : (keysG m).Nodup) : (keysG (insertG m k v)).Nodup := by
  rw [keysG_insertG]
  refine List.Nodup.append (keysG_eraseG_nodup m k h) (List.nodup_singleton k) ?_
  intro a ha hb
  rw [List.mem_singleton] at hb
  exact ((mem_keysG_eraseG m k a).mp ha).2 hb

lemma eraseG_not_mem (m : GetterMap) (k : String) (h : ¬ k ∈ keysG m) :
    eraseG m k = m := by
  induction m with
  | nil => rfl
  | cons e m ih =>
    simp only [keysG, List.map_cons, List.mem_cons, not_or] at h
    have he : ¬ e.1 = k := fun hk => h.1 hk.symm
    simp only [eraseG, if_neg he]
    exact congrArg (e :: ·) (ih (by simpa [keysG] using h.2))

lemma insertG_not_mem (m : GetterMap) (k : String) (v : GrpcGetter)
    (h : ¬ k ∈ keysG m) : insertG m k v = m ++ [(k, v)] := by
  rw [insertG, eraseG_not_mem m k h]

lemma map_keys_lookup (m : GetterMap) (h : (keysG m).Nodup) :
    (keysG m).map (fun k => (k, (lookupG m k).getD ⟨k, 0⟩)) = m := by
  induction m with
  | nil => rfl
  | cons e m ih =>
    have hc := List.nodup_cons.mp (show (e.1 :: keysG m).Nodup by simpa [keysG] using h)
    have hstep : (keysG m).map (fun k => (k, (lookupG (e :: m) k).getD ⟨k, 0⟩))
        = (keysG m).map (fun k => (k, (lookupG m k).getD ⟨k, 0⟩)) := by
      apply List.map_congr_left
      intro k hk
      have hne : ¬ e.1 = k := fun hek => hc.1 (hek ▸ hk)
      simp [lookupG, hne]
    calc (keysG (e :: m)).map (fun k => (k, (lookupG (e :: m) k).getD ⟨k, 0⟩))
        = (e.1 :: keysG m).map (fun k => (k, (lookupG (e :: m) k).getD ⟨k, 0⟩)) := by
          simp [keysG]
      _ = (e.1, e.2) :: (keysG m).map (fun k => (k, (lookupG (e :: m) k).getD ⟨k, 0⟩)) := by
          simp [lookupG]
      _ = (e.1, e.2) :: (keysG m).map (fun k => (k, (lookupG m k).getD ⟨k, 0⟩)) := by
          rw [hstep]
      _ = e :: m := by rw [ih hc.2]

/-! ### Lemmas about the group registry -/

lemma GetGroup_setGroup_self (r : Registry) (name : String) (g g' : Group)
    (h : GetGroup r name = some g) :
    GetGroup (setGroup r name g') name = some g' := by
  induction r with
  | nil => simp [GetGroup] at h
  | cons e r ih =>
    by_cases he : e.1 = name
    · simp [setGroup, GetGroup, he]
    · simp only [GetGroup, if_neg he] at h
      simp [setGroup, GetGroup, he, ih h]

lemma GetGroup_setGroup_ne (r : Registry) (name other : String) (g' : Group)
    (h : ¬ other = name) :
    GetGroup (setGroup r name g') other = GetGroup r other := by
  induction r with
  | nil => rfl
  | cons e r ih =>
    by_cases he : e.1 = name
    · have hno : ¬ name = other := fun hk => h hk.symm
      simp [setGroup, GetGroup, he, hno, ih]
    · simp [setGroup, GetGroup, he, ih]

/-! ### Lemmas about the `RemovePeers` loop -/

lemma removeLoop_lookup_not_mem (ps : List String) :
    ∀ (m : GetterMap) (cl : List GrpcGetter) (a : String), ¬ a ∈ ps →
      lookupG (removeLoop ps m cl).1 a = lookupG m a := by
  induction ps with
  | nil => intro m cl a _; rfl
  | cons p ps ih =>
    intro m cl a ha
    simp only [List.mem_cons, not_or] at ha
    cases hm : lookupG m p with
    | some g =>
      simp only [removeLoop, hm]
      rw [ih _ _ _ ha.2, lookupG_eraseG_ne m p a (fun h => ha.1 h.symm)]
    | none =>
      simp only [removeLoop, hm]
      exact ih _ _ _ ha.2

lemma removeLoop_lookup_mem (ps : List String) :
    ∀ (m : GetterMap) (cl : List GrpcGetter) (a : String), a ∈ ps →
      lookupG (removeLoop ps m cl).1 a = none := by
  induction ps with
  | nil => intro m cl a ha; simp at ha
  | cons p ps ih =>
    intro m cl a ha
    by_cases hmem : a ∈ ps
    · cases hm : lookupG m p <;> simp only [removeLoop, hm] <;> exact ih _ _ _ hmem
    · have hap : a = p := by
        rcases List.mem_cons.mp ha with h | h
        · exact h
        · exact absurd h hmem
      subst hap
      cases hm : lookupG m a with
      | some g =>
        simp only [removeLoop, hm]
        rw [removeLoop_lookup_not_mem ps _ _ _ hmem, lookupG_eraseG_self]
      | none =>
        simp only [removeLoop, hm]
        rw [removeLoop_lookup_not_mem ps _ _ _ hmem, hm]

lemma removeLoop_cl_mono (ps : List String) :
    ∀ (m : GetterMap) (cl : List GrpcGetter) (g : GrpcGetter), g ∈ cl →
      g ∈ (removeLoop ps m cl).2 := by
  induction ps with
  | nil => intro m cl g hg; exact hg
  | cons p ps ih =>
    intro m cl g hg
    cases hm : lookupG m p with
    | some g' =>
      simp only [removeLoop, hm]
      exact ih _ _ _ (List.mem_append_left _ hg)
    | none =>
      simp only [removeLoop, hm]
      exact ih _ _ _ hg

lemma removeLoop_closed (ps : List String) :
    ∀ (m : GetterMap) (cl : List GrpcGetter) (a : String) (g : GrpcGetter),
      a ∈ ps → lookupG m a = some g → g ∈ (removeLoop ps m cl).2 := by
  induction ps with
  | nil => intro m cl a g ha _; simp at ha
  | cons p ps ih =>
    intro m cl a g ha hg
    by_cases hap : a = p
    · subst hap
      simp only [removeLoop, hg]
      exact removeLoop_cl_mono ps _ _ g (by simp)
    · have hmem : a ∈ ps := by
        rcases List.mem_cons.mp ha with h | h
        · exact absurd h hap
        · exact h
      cases hm : lookupG m p with
      | some g' =>
        simp only [removeLoop, hm]
        exact ih _ _ _ _ hmem
          (by rw [lookupG_eraseG_ne m p a (fun h => hap h.symm)]; exact hg)
      | none =>
        simp only [removeLoop, hm]
        exact ih _ _ _ _ hmem hg

/-! ### Lemmas about the `AddPeers` loop -/

lemma addLoop_keys_ring (reach : String → Bool) (P : List String) :
    ∀ (m : GetterMap) (ring : List String) (nid : Nat) (a : String),
      (a ∈ keysG m ↔ a ∈ ring) →
      (a ∈ keysG (addLoop reach P m ring nid).1 ↔
        a ∈ (addLoop reach P m ring nid).2.1) := by
  induction P with
  | nil => intro m ring nid a h; exact h
  | cons p ps ih =>
    intro m ring nid a h
    have hins : ∀ g : GrpcGetter, (a ∈ keysG (insertG m p g) ↔ a ∈ ring ++ [p]) := by
      intro g
      rw [mem_keysG_insertG, List.mem_append, List.mem_singleton, h, or_comm]
    cases hl : lookupG m p with
    | some g =>
      simp only [addLoop, hl]
      exact ih _ _ _ _ h
    | none =>
      cases hng : newGRPCGetter reach p nid with
      | some g =>
        simp only [addLoop, hl, hng]
        exact ih _ _ _ _ (hins g)
      | none =>
        simp only [addLoop, hl, hng]
        exact ih _ _ _ _ h

lemma addLoop_reach_false (reach : String → Bool) (P : List String) :
    ∀ (m : GetterMap) (ring : List String) (nid : Nat) (a : String),
      reach a = false →
      lookupG (addLoop reach P m ring nid).1 a = lookupG m a := by
  induction P with
  | nil => intro m ring nid a _; rfl
  | cons p ps ih =>
    intro m ring nid a ha
    cases hl : lookupG m p with
    | some g =>
      simp only [addLoop, hl]
      exact ih _ _ _ _ ha
    | none =>
      cases hng : newGRPCGetter reach p nid with
      | some g =>
        have hp : reach p = true := by
          by_contra hc
          have hng' : reach p = true ∧ (⟨p, nid⟩ : GrpcGetter) = g := by
            simpa [newGRPCGetter] using hng
          exact hc hng'.1
        have hpa : ¬ p = a := fun h => by rw [h, ha] at hp; cases hp
        simp only [addLoop, hl, hng]
        rw [ih _ _ _ _ ha, lookupG_insertG_ne m a p g hpa]
      | none =>
        simp only [addLoop, hl, hng]
        exact ih _ _ _ _ ha

lemma addLoop_existing (reach : String → Bool) (P : List String) :
    ∀ (m : GetterMap) (ring : List String) (nid : Nat) (a : String) (g : GrpcGetter),
      lookupG m a = some g →
      lookupG (addLoop reach P m ring nid).1 a = some g := by
  induction P with
  | nil => intro m ring nid a g hg; exact hg
  | cons p ps ih =>
    intro m ring nid a g hg
    cases hl : lookupG m p with
    | some g' =>
      simp only [addLoop, hl]
      exact ih _ _ _ _ _ hg
    | none =>
      cases hng : newGRPCGetter reach p nid with
      | some g' =>
        have hpa : ¬ p = a := fun h => by rw [h, hg] at hl; cases hl
        simp only [addLoop, hl, hng]
        exact ih _ _ _ _ _ (by rw [lookupG_insertG_ne m a p g' hpa]; exact hg)
      | none =>
        simp only [addLoop, hl, hng]
        exact ih _ _ _ _ _ hg

/-! ### Lemmas about the `Set` reconciliation loop -/

lemma setLoop_keys_ring (reach : String → Bool) (P : List String) :
    ∀ (old temp : GetterMap) (ring : List String) (nid : Nat) (a : String),
      (a ∈ keysG temp ↔ a ∈ ring) →
      (a ∈ keysG (setLoop reach P old temp ring nid).2.1 ↔
        a ∈ (setLoop reach P old temp ring nid).2.2.1) := by
  induction P with
  | nil => intro old temp ring nid a h; exact h
  | cons p ps ih =>
    intro old temp ring nid a h
    have hins : ∀ g : GrpcGetter, (a ∈ keysG (insertG temp p g) ↔ a ∈ ring ++ [p]) := by
      intro g
      rw [mem_keysG_insertG, List.mem_append, List.mem_singleton, h, or_comm]
    cases hl : lookupG old p with
    | some g =>
      simp only [setLoop, hl]
      exact ih _ _ _ _ _ (hins g)
    | none =>
      cases hng : newGRPCGetter reach p nid with
      | some g =>
        simp only [setLoop, hl, hng]
        exact ih _ _ _ _ _ (hins g)
      | none =>
        simp only [setLoop, hl, hng]
        exact ih _ _ _ _ _ h

lemma setLoop_ring_reachable (reach : String → Bool) (P : List String) :
    ∀ (old temp : GetterMap) (ring : List String) (nid : Nat),
      (∀ p ∈ P, reach p = true) →
      (setLoop reach P old temp ring nid).2.2.1 = ring ++ P := by
  induction P with
  | nil => intro old temp ring nid _; simp [setLoop]
  | cons p ps ih =>
    intro old temp ring nid h
    have hp : reach p = true := h p (List.mem_cons_self p ps)
    have hps : ∀ q ∈ ps, reach q = true := fun q hq => h q (List.mem_cons_of_mem _ hq)
    cases hl : lookupG old p with
    | some g =>
      simp only [setLoop, hl]
      rw [ih _ _ _ _ hps, List.append_assoc, List.singleton_append]
    | none =>
      simp only [setLoop, hl, newGRPCGetter, hp, if_pos]
      rw [ih _ _ _ _ hps, List.append_assoc, List.singleton_append]

lemma setLoop_keys_reachable (reach : String → Bool) (P : List String) :
    ∀ (old temp : GetterMap) (ring : List String) (nid : Nat) (a : String),
      (∀ p ∈ P, reach p = true) →
      (a ∈ keysG (setLoop reach P old temp ring nid).2.1 ↔ a ∈ keysG temp ∨ a ∈ P) := by
  induction P with
  | nil => intro old temp ring nid a _; simp [setLoop]
  | cons p ps ih =>
    intro old temp ring nid a h
    have hp : reach p = true := h p (List.mem_cons_self p ps)
    have hps : ∀ q ∈ ps, reach q = true := fun q hq => h q (List.mem_cons_of_mem _ hq)
    have hfin : ∀ g : GrpcGetter,
        ((a = p ∨ a ∈ keysG temp) ∨ a ∈ ps) ↔ a ∈ keysG temp ∨ a ∈ p :: ps := by
      intro _
      rw [List.mem_cons]
      tauto
    cases hl : lookupG old p with
    | some g =>
      simp only [setLoop, hl]
      rw [ih _ _ _ _ _ hps, mem_keysG_insertG]
      exact hfin g
    | none =>
      simp only [setLoop, hl, newGRPCGetter, hp, if_pos]
      rw [ih _ _ _ _ _ hps, mem_keysG_insertG]
      exact hfin ⟨p, nid⟩

lemma setLoop_keys_nodup (reach : String → Bool) (P : List String) :
    ∀ (old temp : GetterMap) (ring : List String) (nid : Nat),
      (keysG temp).Nodup →
      (keysG (setLoop reach P old temp ring nid).2.1).Nodup := by
  induction P with
  | nil => intro old temp ring nid h; exact h
  | cons p ps ih =>
    intro old temp ring nid h
    cases hl : lookupG old p with
    | some g =>
      simp only [setLoop, hl]
      exact ih _ _ _ _ (keysG_insertG_nodup temp p g h)
    | none =>
      cases hng : newGRPCGetter reach p nid with
      | some g =>
        simp only [setLoop, hl, hng]
        exact ih _ _ _ _ (keysG_insertG_nodup temp p g h)
      | none =>
        simp only [setLoop, hl, hng]
        exact ih _ _ _ _ h

lemma setLoop_old_mem (reach : String → Bool) (P : List String) :
    ∀ (old temp : GetterMap) (ring : List String) (nid : Nat)
      (e : String × GrpcGetter),
      e ∈ old → ¬ e.1 ∈ P → e ∈ (setLoop reach P old temp ring nid).1 := by
  induction P with
  | nil => intro old temp ring nid e he _; exact he
  | cons p ps ih =>
    intro old temp ring nid e he hne
    simp only [List.mem_cons, not_or] at hne
    cases hl : lookupG old p with
    | some g =>
      simp only [setLoop, hl]
      exact ih _ _ _ _ _ ((mem_eraseG old p e).mpr ⟨he, hne.1⟩) hne.2
    | none =>
      cases hng : newGRPCGetter reach p nid with
      | some g =>
        simp only [setLoop, hl, hng]
        exact ih _ _ _ _ _ he hne.2
      | none =>
        simp only [setLoop, hl, hng]
        exact ih _ _ _ _ _ he hne.2

lemma setLoop_temp_not_mem (reach : String → Bool) (P : List String) :
    ∀ (old temp : GetterMap) (ring : List String) (nid : Nat) (a : String),
      ¬ a ∈ P →
      lookupG (setLoop reach P old temp ring nid).2.1 a = lookupG temp a := by
  induction P with
  | nil => intro old temp ring nid a _; rfl
  | cons p ps ih =>
    intro old temp ring nid a ha
    simp only [List.mem_cons, not_or] at ha
    have hpa : ¬ p = a := fun h => ha.1 h.symm
    cases hl : lookupG old p with
    | some g =>
      simp only [setLoop, hl]
      rw [ih _ _ _ _ _ ha.2, lookupG_insertG_ne temp a p g hpa]
    | none =>
      cases hng : newGRPCGetter reach p nid with
      | some g =>
        simp only [setLoop, hl, hng]
        rw [ih _ _ _ _ _ ha.2, lookupG_insertG_ne temp a p g hpa]
      | none =>
        simp only [setLoop, hl, hng]
        exact ih _ _ _ _ _ ha.2

lemma setLoop_moves (reach : String → Bool) (P : List String) :
    ∀ (old temp : GetterMap) (ring : List String) (nid : Nat) (a : String)
      (g : GrpcGetter),
      P.Nodup → a ∈ P → lookupG old a = some g →
      lookupG (setLoop reach P old temp ring nid).2.1 a = some g := by
  induction P with
  | nil => intro old temp ring nid a g _ ha _; simp at ha
  | cons p ps ih =>
    intro old temp ring nid a g hnd ha hg
    rcases List.nodup_cons.mp hnd with ⟨hpn, hnd'⟩
    by_cases hap : a = p
    · subst hap
      simp only [setLoop, hg]
      rw [setLoop_temp_not_mem reach ps _ _ _ _ _ hpn, lookupG_insertG_self]
    · have hmem : a ∈ ps := by
        rcases List.mem_cons.mp ha with h | h
        · exact absurd h hap
        · exact h
      have hpa : ¬ p = a := fun h => hap h.symm
      cases hl : lookupG old p with
      | some g' =>
        simp only [setLoop, hl]
        exact ih _ _ _ _ _ _ hnd' hmem
          (by rw [lookupG_eraseG_ne old p a hpa]; exact hg)
      | none =>
        cases hng : newGRPCGetter reach p nid with
        | some g' =>
          simp only [setLoop, hl, hng]
          exact ih _ _ _ _ _ _ hnd' hmem hg
        | none =>
          simp only [setLoop, hl, hng]
          exact ih _ _ _ _ _ _ hnd' hmem hg

lemma setLoop_present (reach : String → Bool) (P : List String) :
    ∀ (old temp : GetterMap) (ring : List String) (nid : Nat),
      P.Nodup → (∀ p ∈ P, (lookupG old p).isSome = true) →
      (∀ p ∈ P, ¬ p ∈ keysG temp) →
      setLoop reach P old temp ring nid =
        (P.foldl (fun m k => eraseG m k) old,
         temp ++ P.map (fun p => (p, (lookupG old p).getD ⟨p, 0⟩)),
         ring ++ P, nid) := by
  induction P with
  | nil => intro old temp ring nid _ _ _; simp [setLoop]
  | cons p ps ih =>
    intro old temp ring nid hnd hsome hkeys
    rcases List.nodup_cons.mp hnd with ⟨hpn, hnd'⟩
    obtain ⟨g, hg⟩ : ∃ g, lookupG old p = some g := by
      cases hl : lookupG old p with
      | some g => exact ⟨g, rfl⟩
      | none =>
        have := hsome p (List.mem_cons_self p ps)
        rw [hl] at this
        cases this
    have h1 : insertG temp p g = temp ++ [(p, g)] :=
      insertG_not_mem temp p g (hkeys p (List.mem_cons_self p ps))
    have hsome' : ∀ q ∈ ps, (lookupG (eraseG old p) q).isSome = true := by
      intro q hq
      have hqp : ¬ p = q := fun h => hpn (h ▸ hq)
      rw [lookupG_eraseG_ne old p q hqp]
      exact hsome q (List.mem_cons_of_mem _ hq)
    have hkeys' : ∀ q ∈ ps, ¬ q ∈ keysG (temp ++ [(p, g)]) := by
      intro q hq hmem
      rw [keysG_append] at hmem
      rcases List.mem_append.mp hmem with h | h
      · exact hkeys q (List.mem_cons_of_mem _ hq) h
      · have : q = p := by simpa [keysG] using h
        exact hpn (this ▸ hq)
    simp only [setLoop, hg, h1]
    rw [ih (eraseG old p) (temp ++ [(p, g)]) (ring ++ [p]) nid hnd' hsome' hkeys']
    simp only [Prod.mk.injEq]
    refine ⟨rfl, ?_, ?_, trivial⟩
    · have hmaps : ps.map (fun q => (q, (lookupG (eraseG old p) q).getD ⟨q, 0⟩))
          = ps.map (fun q => (q, (lookupG old q).getD ⟨q, 0⟩)) := by
        apply List.map_congr_left
        intro q hq
        have hqp : ¬ p = q := fun h => hpn (h ▸ hq)
        rw [lookupG_eraseG_ne old p q hqp]
      rw [hmaps, List.append_assoc, List.singleton_append, List.map_cons, hg]
      rfl
    · rw [List.append_assoc, List.singleton_append]

lemma foldl_eraseG_nil (P : List String) :
    ∀ m : GetterMap, (∀ e ∈ m, e.1 ∈ P) →
      P.foldl (fun m k => eraseG m k) m = [] := by
  induction P with
  | nil =>
    intro m h
    cases m with
    | nil => rfl
    | cons e m => exact absurd (h e (List.mem_cons_self e m)) (by simp)
  | cons p ps ih =>
    intro m h
    simp only [List.foldl_cons]
    apply ih
    intro e he
    rcases (mem_eraseG m p e).mp he with ⟨hm, hne⟩
    rcases List.mem_cons.mp (h e hm) with h' | h'
    · exact absurd h' hne
    · exact h'

lemma setLoop_keys_list (reach : String → Bool) (P : List String) :
    ∀ (old temp : GetterMap) (ring : List String) (nid : Nat),
      P.Nodup → (∀ p ∈ P, reach p = true) → (∀ p ∈ P, ¬ p ∈ keysG temp) →
      keysG (setLoop reach P old temp ring nid).2.1 = keysG temp ++ P := by
  induction P with
  | nil => intro old temp ring nid _ _ _; simp [setLoop]
  | cons p ps ih =>
    intro old temp ring nid hnd hreach hkeys
    rcases List.nodup_cons.mp hnd with ⟨hpn, hnd'⟩
    have hp : reach p = true := hreach p (List.mem_cons_self p ps)
    have hreach' : ∀ q ∈ ps, reach q = true :=
      fun q hq => hreach q (List.mem_cons_of_mem _ hq)
    have hkeys' : ∀ (g : GrpcGetter) (q : String), q ∈ ps →
        ¬ q ∈ keysG (insertG temp p g) := by
      intro g q hq hmem
      rcases (mem_keysG_insertG temp p q g).mp hmem with h | h
      · exact hpn (h ▸ hq)
      · exact hkeys q (List.mem_cons_of_mem _ hq) h
    have hk1 : ∀ g : GrpcGetter, keysG (insertG temp p g) = keysG temp ++ [p] := by
      intro g
      rw [insertG_not_mem temp p g (hkeys p (List.mem_cons_self p ps)), keysG_append]
      rfl
    cases hl : lookupG old p with
    | some g =>
      simp only [setLoop, hl]
      rw [ih _ _ _ _ hnd' hreach' (hkeys' g), hk1 g, List.append_assoc,
        List.singleton_append]
    | none =>
      simp only [setLoop, hl, newGRPCGetter, hp, if_pos]
      rw [ih _ _ _ _ hnd' hreach' (hkeys' ⟨p, nid⟩), hk1 ⟨p, nid⟩, List.append_assoc,
        List.singleton_append]

lemma setLoop_temp_reach_false (reach : String → Bool) (P : List String) :
    ∀ (old temp : GetterMap) (ring : List String) (nid : Nat) (a : String),
      reach a = false → ¬ a ∈ keysG old →
      lookupG (setLoop reach P old temp ring nid).2.1 a = lookupG temp a := by
  induction P with
  | nil => intro old temp ring nid a _ _; rfl
  | cons p ps ih =>
    intro old temp ring nid a ha hao
    cases hl : lookupG old p with
    | some g =>
      have hpm : p ∈ keysG old := (lookupG_isSome_iff old p).mp (by rw [hl]; rfl)
      have hpa : ¬ p = a := fun h => hao (h ▸ hpm)
      have hao' : ¬ a ∈ keysG (eraseG old p) := by
        intro hmem
        exact hao ((mem_keysG_eraseG old p a).mp hmem).1
      simp only [setLoop, hl]
      rw [ih _ _ _ _ _ ha hao', lookupG_insertG_ne temp a p g hpa]
    | none =>
      cases hng : newGRPCGetter reach p nid with
      | some g =>
        have hp : reach p = true := by
          by_contra hc
          have hng' : reach p = true ∧ (⟨p, nid⟩ : GrpcGetter) = g := by
            simpa [newGRPCGetter] using hng
          exact hc hng'.1
        have hpa : ¬ p = a := fun h => by rw [h, ha] at hp; cases hp
        simp only [setLoop, hl, hng]
        rw [ih _ _ _ _ _ ha hao, lookupG_insertG_ne temp a p g hpa]
      | none =>
        simp only [setLoop, hl, hng]
        exact ih _ _ _ _ _ ha hao

/-! ### Projections of `Set` onto the reconciliation loop -/

lemma Set_grpcGetters (reach : String → Bool) (gp : GRPCPool) (P : List String) :
    (gp.Set reach P).grpcGetters
      = (setLoop reach P gp.grpcGetters [] [] gp.nextId).2.1 := rfl

lemma Set_peers (reach : String → Bool) (gp : GRPCPool) (P : List String) :
    (gp.Set reach P).peers
      = (setLoop reach P gp.grpcGetters [] [] gp.nextId).2.2.1 := rfl

lemma Set_closedConns (reach : String → Bool) (gp : GRPCPool) (P : List String) :
    (gp.Set reach P).closedConns
      = gp.closedConns ++ valuesG (setLoop reach P gp.grpcGetters [] [] gp.nextId).1 := rfl

lemma Set_nextId (reach : String → Bool) (gp : GRPCPool) (P : List String) :
    (gp.Set reach P).nextId
      = (setLoop reach P gp.grpcGetters [] [] gp.nextId).2.2.2 := rfl

/-! ## Claim theorems -/

/-- C1 counterexample: in a pool whose ring and connection map both hold
the member `B`, `RemovePeers ["B"]` closes `B`'s connection and deletes
it from the connection map, yet `B` is still present in the hash ring —
refuting the claim that the address is removed from both the membership
and the ring. -/
theorem C1_counterexample :
    lookupG poolB.grpcGetters "B" = some ⟨"B", 0⟩ ∧
    lookupG (poolB.RemovePeers ["B"]).1.grpcGetters "B" = none ∧
    (⟨"B", 0⟩ : GrpcGetter) ∈ (poolB.RemovePeers ["B"]).1.closedConns ∧
    ¬ ("B" ∉ (poolB.RemovePeers ["B"]).1.peers) := by decide

/-- C1 (amended): for every address in the list passed to `RemovePeers`
that is currently a member, the call closes that address's connection
and removes it from the connections map, while the hash ring is left
entirely unchanged; addresses not present are silently ignored (their
map entries are untouched), and the call always acknowledges. -/
theorem C1_removePeers_amended (gp : GRPCPool) (peersArg : List String) :
    (gp.RemovePeers peersArg).1.peers = gp.peers ∧
    (gp.RemovePeers peersArg).2 = .ok () ∧
    (∀ a ∈ peersArg, lookupG (gp.RemovePeers peersArg).1.grpcGetters a = none) ∧
    (∀ a, ¬ a ∈ peersArg →
      lookupG (gp.RemovePeers peersArg).1.grpcGetters a = lookupG gp.grpcGetters a) ∧
    (∀ a g, a ∈ peersArg → lookupG gp.grpcGetters a = some g →
      g ∈ (gp.RemovePeers peersArg).1.closedConns) := by
  refine ⟨rfl, rfl, ?_, ?_, ?_⟩
  · intro a ha
    exact removeLoop_lookup_mem peersArg _ _ a ha
  · intro a ha
    exact removeLoop_lookup_not_mem peersArg _ _ a ha
  · intro a g ha hg
    exact removeLoop_closed peersArg _ _ a g ha hg

/-- C1 witness: the amended theorem applied to the concrete pool
holding the single member `B`. -/
theorem C1_witness :
    lookupG poolB.grpcGetters "B" = some ⟨"B", 0⟩ ∧
    (⟨"B", 0⟩ : GrpcGetter) ∈ (poolB.RemovePeers ["B"]).1.closedConns :=
  ⟨by decide,
    (C1_removePeers_amended poolB ["B"]).2.2.2.2 "B" ⟨"B", 0⟩ (by decide) (by decide)⟩

/-- C2 counterexample: after `Set ["B"]` the connection-map keys and the
ring coincide, but a subsequent `RemovePeers ["B"]` deletes `B` from the
map while leaving it in the ring, so the two diverge — refuting the
claim that the invariant holds after every membership-mutating
operation. -/
theorem C2_counterexample :
    ("B" ∈ keysG (poolEmpty.Set allReach ["B"]).grpcGetters) ∧
    ("B" ∈ (poolEmpty.Set allReach ["B"]).peers) ∧
    ¬ ("B" ∈ keysG ((poolEmpty.Set allReach ["B"]).RemovePeers ["B"]).1.grpcGetters) ∧
    ("B" ∈ ((poolEmpty.Set allReach ["B"]).RemovePeers ["B"]).1.peers) := by decide

/-- C2 (amended): the key set of the connections map coincides with the
address set of the hash ring after construction, after every
`Set`/`SetPeers`, and `AddPeers` preserves the coincidence — but
`RemovePeers` breaks it (it removes addresses from the map only, never
from the ring). -/
theorem C2_invariant_amended :
    (∀ (self : String) (opts : Option GRPCPoolOptions) (b : Bool) (gp : GRPCPool),
      NewGRPCPoolOptions false self opts = .ok (b, gp) →
      (∀ a, a ∈ keysG gp.grpcGetters ↔ a ∈ gp.peers)) ∧
    (∀ (reach : String → Bool) (gp : GRPCPool) (P : List String) (a : String),
      a ∈ keysG (gp.Set reach P).grpcGetters ↔ a ∈ (gp.Set reach P).peers) ∧
    (∀ (reach : String → Bool) (gp : GRPCPool) (P : List String) (a : String),
      (∀ x, x ∈ keysG gp.grpcGetters ↔ x ∈ gp.peers) →
      (a ∈ keysG (gp.AddPeers reach P).1.grpcGetters ↔
        a ∈ (gp.AddPeers reach P).1.peers)) := by
  refine ⟨?_, ?_, ?_⟩
  · intro self opts b gp h a
    simp only [NewGRPCPoolOptions, if_neg (by simp : ¬ false = true)] at h
    rw [Except.ok.injEq, Prod.mk.injEq] at h
    obtain ⟨-, h2⟩ := h
    subst h2
    simp [keysG]
  · intro reach gp P a
    rw [Set_grpcGetters, Set_peers]
    exact setLoop_keys_ring reach P _ _ _ _ a (by simp [keysG])
  · intro reach gp P a h
    exact addLoop_keys_ring reach P _ _ _ a (h a)

/-- C2 witness: the `AddPeers` clause of the amended invariant applied
to the empty pool and the peer list `["B"]`. -/
theorem C2_witness :
    "B" ∈ keysG (poolEmpty.AddPeers allReach ["B"]).1.grpcGetters ↔
      "B" ∈ (poolEmpty.AddPeers allReach ["B"]).1.peers :=
  C2_invariant_amended.2.2 allReach poolEmpty ["B"] "B"
    (fun x => by simp [poolEmpty, keysG])

/-- C3 counterexample: with ring `["B"]`, `self = "A"` and an empty
connections map, the ring owner of key `k` is the non-self address `B`
with no map entry, and `PickPeer` returns `(none, true)` — not the
"no remote owner" result `(none, false)` the claim requires. -/
theorem C3_counterexample :
    poolMissing.peers ≠ [] ∧
    ringGet hashZero poolMissing.peers "k" ≠ poolMissing.self ∧
    lookupG poolMissing.grpcGetters (ringGet hashZero poolMissing.peers "k") = none ∧
    poolMissing.PickPeer hashZero "k" ≠ (none, false) ∧
    poolMissing.PickPeer hashZero "k" = (none, true) := by decide

/-- C3 (amended): whenever the ring-computed owner is a non-self
address with no entry in the connections map, `PickPeer` does not fault
but returns no connection together with `found = true` — which differs
from the "no remote owner" result `(none, false)`. -/
theorem C3_pickPeer_amended (hashFn : String → Nat) (gp : GRPCPool) (key : String)
    (hne : gp.peers ≠ [])
    (hself : ringGet hashFn gp.peers key ≠ gp.self)
    (hmiss : lookupG gp.grpcGetters (ringGet hashFn gp.peers key) = none) :
    gp.PickPeer hashFn key = (none, true) := by
  simp [GRPCPool.PickPeer, hne, hself, hmiss]

/-- C3 witness: the amended theorem applied to the concrete
inconsistent pool. -/
theorem C3_witness : poolMissing.PickPeer hashZero "k" = (none, true) :=
  C3_pickPeer_amended hashZero poolMissing "k" (by decide) (by decide) (by decide)

/-- C4 counterexample: with the duplicate-containing, fully-reachable
peer list `["C", "C"]`, the first `Set` call leaves connection object
`⟨C, 1⟩` and the second, identical call replaces it with a freshly
dialed `⟨C, 2⟩` (consuming a new connection identity) — so an address
present in both consecutive lists does not keep its connection object,
refuting the claim for arbitrary peer lists. -/
theorem C4_counterexample :
    lookupG (poolEmpty.Set allReach ["C", "C"]).grpcGetters "C"
      = some ⟨"C", 1⟩ ∧
    lookupG ((poolEmpty.Set allReach ["C", "C"]).Set allReach ["C", "C"]).grpcGetters "C"
      = some ⟨"C", 2⟩ ∧
    ((poolEmpty.Set allReach ["C", "C"]).Set allReach ["C", "C"]).nextId
      = (poolEmpty.Set allReach ["C", "C"]).nextId + 1 := by decide

/-- C4 (amended): for every duplicate-free peer list `P` with all
addresses reachable, calling `Set` twice consecutively is idempotent —
the second call returns the identical pool state, so no connection is
recreated, closed, or re-dialed; and in general, across any `Set` call
with a duplicate-free list, every address in the list that already had
a connection keeps the identical connection object. -/
theorem C4_set_reuse_amended :
    (∀ (reach : String → Bool) (gp : GRPCPool) (P : List String),
      P.Nodup → (∀ p ∈ P, reach p = true) →
      (gp.Set reach P).Set reach P = gp.Set reach P) ∧
    (∀ (reach : String → Bool) (gp : GRPCPool) (P : List String) (a : String)
      (g : GrpcGetter), P.Nodup → a ∈ P → lookupG gp.grpcGetters a = some g →
      lookupG (gp.Set reach P).grpcGetters a = some g) := by
  constructor
  · intro reach gp P hnd hreach
    have hkeys : keysG (gp.Set reach P).grpcGetters = P := by
      rw [Set_grpcGetters,
        setLoop_keys_list reach P _ _ _ _ hnd hreach (fun p _ => by simp [keysG])]
      simp [keysG]
    have hpeers : (gp.Set reach P).peers = P := by
      rw [Set_peers, setLoop_ring_reachable reach P _ _ _ _ hreach]
      exact List.nil_append P
    have hsome : ∀ p ∈ P, (lookupG (gp.Set reach P).grpcGetters p).isSome = true := by
      intro p hp
      rw [lookupG_isSome_iff, hkeys]
      exact hp
    have hpres := setLoop_present reach P (gp.Set reach P).grpcGetters [] []
      (gp.Set reach P).nextId hnd hsome (fun p _ => by simp [keysG])
    have hold : P.foldl (fun m k => eraseG m k) (gp.Set reach P).grpcGetters = [] := by
      apply foldl_eraseG_nil
      intro e he
      rw [← hkeys, mem_keysG_iff]
      exact ⟨e.2, he⟩
    have hmap : P.map
        (fun p => (p, (lookupG (gp.Set reach P).grpcGetters p).getD ⟨p, 0⟩))
        = (gp.Set reach P).grpcGetters := by
      have h := map_keys_lookup (gp.Set reach P).grpcGetters (by rw [hkeys]; exact hnd)
      rw [hkeys] at h
      exact h
    apply GRPCPool.ext
    · rfl
    · rfl
    · rw [Set_peers, hpres]
      exact (List.nil_append P).trans hpeers.symm
    · rw [Set_grpcGetters, hpres]
      exact hmap
    · rw [Set_closedConns, hpres]
      show (gp.Set reach P).closedConns
          ++ valuesG (P.foldl (fun m k => eraseG m k) (gp.Set reach P).grpcGetters)
          = (gp.Set reach P).closedConns
      rw [hold]
      simp [valuesG]
    · rw [Set_nextId, hpres]
  · intro reach gp P a g hnd ha hg
    rw [Set_grpcGetters]
    exact setLoop_moves reach P _ _ _ _ a g hnd ha hg

/-- C4 witness: the amended idempotence applied to the duplicate-free,
fully-reachable list `["B", "C"]`. -/
theorem C4_witness :
    (poolEmpty.Set allReach ["B", "C"]).Set allReach ["B", "C"]
      = poolEmpty.Set allReach ["B", "C"] :=
  C4_set_reuse_amended.1 allReach poolEmpty ["B", "C"] (by decide) (by decide)

/-- C5: for every peer list `P` in which every address is reachable,
after `Set P` the connection map holds exactly one connection per
address of `P` (its key set has no duplicates and coincides with the
addresses of `P`, and `GetAll` returns one connection per map entry),
the ring is empty iff `P` is empty, and every previously held
connection whose address is not in `P` has been closed. -/
theorem C5_set_getAll (reach : String → Bool) (gp : GRPCPool) (P : List String)
    (hreach : ∀ p ∈ P, reach p = true) :
    (∀ a, a ∈ keysG (gp.Set reach P).grpcGetters ↔ a ∈ P) ∧
    (keysG (gp.Set reach P).grpcGetters).Nodup ∧
    ((gp.Set reach P).GetAll).length = (keysG (gp.Set reach P).grpcGetters).length ∧
    ((gp.Set reach P).peers = [] ↔ P = []) ∧
    (∀ k g, (k, g) ∈ gp.grpcGetters → ¬ k ∈ P →
      g ∈ (gp.Set reach P).closedConns) := by
  refine ⟨?_, ?_, ?_, ?_, ?_⟩
  · intro a
    rw [Set_grpcGetters, setLoop_keys_reachable reach P _ _ _ _ a hreach]
    simp [keysG]
  · rw [Set_grpcGetters]
    exact setLoop_keys_nodup reach P _ _ _ _ (by simp [keysG])
  · simp [GRPCPool.GetAll, valuesG, keysG]
  · rw [Set_peers, setLoop_ring_reachable reach P _ _ _ _ hreach, List.nil_append]
  · intro k g hm hk
    have hmem := setLoop_old_mem reach P gp.grpcGetters [] [] gp.nextId (k, g) hm hk
    rw [Set_closedConns]
    apply List.mem_append_right
    exact List.mem_map_of_mem (fun e => e.2) hmem

/-- C5 witness: the theorem applied to the empty pool and the
fully-reachable list `["B", "C"]`. -/
theorem C5_witness :
    (∀ p ∈ ["B", "C"], allReach p = true) ∧
    ("B" ∈ keysG (poolEmpty.Set allReach ["B", "C"]).grpcGetters ↔
      "B" ∈ ["B", "C"]) :=
  ⟨by decide, (C5_set_getAll allReach poolEmpty ["B", "C"] (by decide)).1 "B"⟩

/-- C6: `PickPeer` returns "no remote owner" `(none, false)` when the
ring is empty and when the ring-computed owner equals `self`; otherwise
it returns the connection registered for the owning address together
with `found = true`. -/
theorem C6_pickPeer (hashFn : String → Nat) (gp : GRPCPool) (key : String) :
    (gp.peers = [] → gp.PickPeer hashFn key = (none, false)) ∧
    (ringGet hashFn gp.peers key = gp.self →
      gp.PickPeer hashFn key = (none, false)) ∧
    (∀ c, gp.peers ≠ [] → ringGet hashFn gp.peers key ≠ gp.self →
      lookupG gp.grpcGetters (ringGet hashFn gp.peers key) = some c →
      gp.PickPeer hashFn key = (some c, true)) := by
  refine ⟨?_, ?_, ?_⟩
  · intro h
    simp [GRPCPool.PickPeer, h]
  · intro h
    by_cases hne : gp.peers = []
    · simp [GRPCPool.PickPeer, hne]
    · simp [GRPCPool.PickPeer, hne, h]
  · intro c hne hself hc
    simp [GRPCPool.PickPeer, hne, hself, hc]

/-- C6 witness: the non-self clause applied to the pool holding the
single remote member `B`. -/
theorem C6_witness : poolB.PickPeer hashZero "k" = (some ⟨"B", 0⟩, true) :=
  (C6_pickPeer hashZero poolB "k").2.2 ⟨"B", 0⟩ (by decide) (by decide) (by decide)

/-- C7: per-peer connect failures inside `SetPeers` and `AddPeers` are
never surfaced: both handlers always acknowledge with no error, and an
address whose dial fails (and that was not already a member) is simply
absent from the resulting membership. -/
theorem C7_best_effort (reach : String → Bool) (gp : GRPCPool) (P : List String) :
    ((gp.SetPeers reach P).2 = .ok ()) ∧
    ((gp.AddPeers reach P).2 = .ok ()) ∧
    (∀ p, p ∈ P → reach p = false → ¬ p ∈ keysG gp.grpcGetters →
      ¬ p ∈ keysG (gp.SetPeers reach P).1.grpcGetters) ∧
    (∀ p, p ∈ P → reach p = false → ¬ p ∈ keysG gp.grpcGetters →
      ¬ p ∈ keysG (gp.AddPeers reach P).1.grpcGetters) := by
  refine ⟨rfl, rfl, ?_, ?_⟩
  · intro p _ hrf hnm hmem
    rw [← lookupG_isSome_iff] at hmem
    have : lookupG (gp.SetPeers reach P).1.grpcGetters p = lookupG ([] : GetterMap) p :=
      setLoop_temp_reach_false reach P gp.grpcGetters [] [] gp.nextId p hrf hnm
    rw [this] at hmem
    simp [lookupG] at hmem
  · intro p _ hrf hnm hmem
    rw [← lookupG_isSome_iff] at hmem
    have : lookupG (gp.AddPeers reach P).1.grpcGetters p = lookupG gp.grpcGetters p :=
      addLoop_reach_false reach P gp.grpcGetters gp.peers gp.nextId p hrf
    rw [this, lookupG_isSome_iff] at hmem
    exact hnm hmem

/-- C7 witness: an unreachable new address is absent after `AddPeers`. -/
theorem C7_witness :
    ¬ "B" ∈ keysG (poolEmpty.AddPeers noReach ["B"]).1.grpcGetters :=
  (C7_best_effort noReach poolEmpty ["B"]).2.2.2 "B" (by decide) (by decide)
    (by decide)

/-- C8: `Retrieve` on an unknown group fails without touching any
counter (the registry is returned unchanged); on a registered group it
increments that group's server-request counter exactly once, leaves
every other group untouched, and returns the fetched value bytes or
propagates the wrapped fetch failure. -/
theorem C8_retrieve (fetch : String → String → Except String Bytes)
    (r : Registry) (group key : String) :
    (GetGroup r group = none →
      GRPCPool.Retrieve fetch r group key
        = (r, .error ("Unable to find group [" ++ group ++ "]"))) ∧
    (∀ g, GetGroup r group = some g →
      GetGroup (GRPCPool.Retrieve fetch r group key).1 group
          = some { g with serverRequests := g.serverRequests + 1 } ∧
      (∀ other, ¬ other = group →
        GetGroup (GRPCPool.Retrieve fetch r group key).1 other = GetGroup r other) ∧
      (∀ v, fetch group key = .ok v →
        (GRPCPool.Retrieve fetch r group key).2 = .ok v) ∧
      (∀ e, fetch group key = .error e →
        (GRPCPool.Retrieve fetch r group key).2
          = .error ("Failed to retrieve [" ++ group ++ "/" ++ key ++ "]: " ++ e))) := by
  constructor
  · intro h
    simp [GRPCPool.Retrieve, h]
  · intro g h
    refine ⟨?_, ?_, ?_, ?_⟩
    · simp only [GRPCPool.Retrieve, h]
      cases hf : fetch group key with
      | error e => exact GetGroup_setGroup_self r group g _ h
      | ok v => exact GetGroup_setGroup_self r group g _ h
    · intro other hne
      simp only [GRPCPool.Retrieve, h]
      cases hf : fetch group key with
      | error e => exact GetGroup_setGroup_ne r group other _ hne
      | ok v => exact GetGroup_setGroup_ne r group other _ hne
    · intro v hv
      simp [GRPCPool.Retrieve, h, hv]
    · intro e he
      simp [GRPCPool.Retrieve, h, he]

/-- C8 witness: retrieving from the registered group `g1` bumps its
counter from 0 to 1. -/
theorem C8_witness :
    GetGroup (GRPCPool.Retrieve fetchOk reg1 "g1" "k").1 "g1"
      = some { serverRequests := 1, removed := [] } :=
  ((C8_retrieve fetchOk reg1 "g1" "k").2
    { serverRequests := 0, removed := [] } (by decide)).1

/-- C9: constructing the pool while the process-wide flag is already
set fails with the configuration error, for both constructors; the
first construction succeeds and returns the flag set to `true`. -/
theorem C9_singleton (self : String) (opts : Option GRPCPoolOptions) :
    (∃ gp : GRPCPool, NewGRPCPoolOptions false self opts = .ok (true, gp)) ∧
    (NewGRPCPoolOptions true self opts
      = .error "NewGRPCPool must be called only once") ∧
    (NewGRPCPool true self = .error "NewGRPCPool must be called only once") :=
  ⟨⟨_, rfl⟩, rfl, rfl⟩

/-- C10: on a registered group, the inbound `Delete` handler increments
that group's server-request counter exactly once and performs the
local-only removal of the key, then acknowledges. -/
theorem C10_delete_counter (r : Registry) (group key : String) (g : Group)
    (h : GetGroup r group = some g) :
    GetGroup (GRPCPool.Delete r group key).1 group
      = some { g with serverRequests := g.serverRequests + 1,
                      removed := g.removed ++ [key] } ∧
    (GRPCPool.Delete r group key).2 = .ok () := by
  constructor
  · simp only [GRPCPool.Delete, h]
    exact GetGroup_setGroup_self r group g _ h
  · simp [GRPCPool.Delete, h]

/-- C10 witness: deleting key `k` from the registered group `g1` bumps
its counter and records the removal. -/
theorem C10_witness :
    GetGroup (GRPCPool.Delete reg1 "g1" "k").1 "g1"
      = some { serverRequests := 1, removed := ["k"] } ∧
    (GRPCPool.Delete reg1 "g1" "k").2 = .ok () :=
  C10_delete_counter reg1 "g1" "k" { serverRequests := 0, removed := [] }
    (by decide)

end Groupcache
